import Mathlib

/-!
Verification of the core logic of the `value-hierarchy` CLI
(repository `objectivist-value-hierarchy`, file `src/index.ts`).

The two procedures with non-trivial logic are embedded here as pure
functions over an in-memory list of records:

* the `pairs` action (spec name `selectPairs`): stable sort by
  `comparisonCount`, candidate-pool policy, random shuffle, and emission
  of consecutive disjoint pairs;
* the `update-scores` action (spec name `applyOutcomes`): parsing of
  `"Winner>Loser"` response strings, first-match title resolution via
  `Array.prototype.find`, and the fixed ±10 score adjustment, with the
  process aborting (via `process.exit(1)`) before any write whenever an
  outcome is malformed or a title fails to resolve.

Modelling choices, each taken from the source:
* `score` (a JS number that only ever moves by ±10 from integral CSV
  values in this code path) is embedded as `Int`;
* JS object mutation through the two aliases returned by `find` is
  embedded as a sequence of positional updates (`modifyAt`) applied in
  exactly the order the source mutates fields, which reproduces the
  aliasing behaviour when winner and loser resolve to the same element;
* `Array.prototype.sort` with comparator
  `(a, b) => a.comparisonCount - b.comparisonCount` is guaranteed stable
  by the ECMAScript spec; it is embedded as a stable insertion sort and
  the stability, sortedness and permutation facts are proved about it;
* the in-place Fisher–Yates shuffle driven by `Math.random()` is
  embedded as an abstract function `shuffle` constrained to produce a
  permutation of its input, following the spec's instruction to treat it
  as a uniform random permutation source;
* `String.prototype.split('>')` and `String.prototype.trim()` are
  embedded structurally over the character list of the string.
-/

/-- One record of a `.values.csv` hierarchy, as read by `readValues`. -/
structure Value where
  id : String
  title : String
  score : Int
  comparisonCount : Nat
  tags : String
  createdAt : String
  updatedAt : String
  rationale : String
deriving DecidableEq, Inhabited

/-- Splitting of a character list on a separator, mirroring the
behaviour of JS `String.prototype.split` with a one-character
separator (in particular the empty string splits to `[[]]`). -/
def splitOnChar (c : Char) : List Char → List (List Char)
  | [] => [[]]
  | x :: xs =>
    if x = c then
      [] :: splitOnChar c xs
    else
      match splitOnChar c xs with
      | [] => [[x]]
      | r :: rs => (x :: r) :: rs

/-- JS `resp.split(c)` for a one-character separator. -/
def jsSplit (s : String) (c : Char) : List String :=
  (splitOnChar c s.data).map String.mk

/-- JS `s.trim()`: drop leading and trailing whitespace. -/
def jsTrim (s : String) : String :=
  String.mk (((s.data.dropWhile Char.isWhitespace).reverse.dropWhile
      Char.isWhitespace).reverse)

/-- Parsing of one response string in the `update-scores` action:
`const [winner, loser] = resp.split('>')` followed by the falsy check
`if (!winner || !loser)`. A missing component (`undefined`) and an
empty component are both falsy, so both are modelled as `""`. -/
def parseOutcome (resp : String) : Option (String × String) :=
  let parts := jsSplit resp '>'
  let winner := parts.getD 0 ""
  let loser := parts.getD 1 ""
  if winner = "" ∨ loser = "" then none else some (winner, loser)

/-- Replace the element at index `i` by `f` of it; out-of-range indices
leave the list unchanged. This is the effect of mutating, through an
object reference obtained from `Array.prototype.find`, the record stored
at position `i` of the array. -/
def modifyAt {α : Type} : List α → Nat → (α → α) → List α
  | [], _, _ => []
  | x :: xs, 0, f => f x :: xs
  | x :: xs, i + 1, f => x :: modifyAt xs i f

/-- Index of the first record whose `title` equals `t`, mirroring
`values.find(v => v.title === t)` (which returns the first match). -/
def findTitleIdx (t : String) : List Value → Option Nat
  | [] => none
  | v :: vs => if v.title = t then some 0 else (findTitleIdx t vs).map (· + 1)

/-- The six field mutations the `update-scores` action performs for one
resolved outcome, in source order: `winValue.score += 10`,
`loseValue.score -= 10`, `winValue.comparisonCount += 1`,
`loseValue.comparisonCount += 1`, `winValue.updatedAt = now`,
`loseValue.updatedAt = now`, where `winValue` is the record at index
`wi` and `loseValue` the record at index `li` (possibly the same). -/
def applyPairAt (values : List Value) (wi li : Nat) (now : String) : List Value :=
  modifyAt
    (modifyAt
      (modifyAt
        (modifyAt
          (modifyAt
            (modifyAt values wi fun v => { v with score := v.score + 10 })
            li fun v => { v with score := v.score - 10 })
          wi fun v => { v with comparisonCount := v.comparisonCount + 1 })
        li fun v => { v with comparisonCount := v.comparisonCount + 1 })
      wi fun v => { v with updatedAt := now })
    li fun v => { v with updatedAt := now }

/-- Processing of one response string by the `update-scores` action:
parse it, resolve winner and loser by trimmed exact title (first match),
and apply the mutations; `none` models the `process.exit(1)` paths
(malformed response, or a title that does not resolve). -/
def applyOutcome (values : List Value) (resp : String) (now : String) :
    Option (List Value) :=
  (parseOutcome resp).bind fun wl =>
    (findTitleIdx (jsTrim wl.1) values).bind fun wi =>
      (findTitleIdx (jsTrim wl.2) values).bind fun li =>
        some (applyPairAt values wi li now)

/-- The `responses.forEach` loop of the `update-scores` action over the
already comma-split list of response strings: outcomes are applied in
input order and the first failure aborts the whole run. -/
def applyOutcomes (values : List Value) (responses : List String)
    (now : String) : Option (List Value) :=
  match responses with
  | [] => some values
  | r :: rs => (applyOutcome values r now).bind fun vs => applyOutcomes vs rs now

/-- The record store as persisted after the `update-scores` command:
`writeValues` runs only after the loop finishes, and `process.exit(1)`
inside the loop fires before it, so on any failure the stored records
stay exactly as loaded. -/
def updateScoresStore (values : List Value) (responses : List String)
    (now : String) : List Value :=
  match applyOutcomes values responses now with
  | some vs => vs
  | none => values

theorem modifyAt_length {α : Type} :
    ∀ (l : List α) (i : Nat) (f : α → α), (modifyAt l i f).length = l.length := by
  intro l
  induction l with
  | nil => intro i f; rfl
  | cons x xs ih =>
    intro i f
    cases i with
    | zero => rfl
    | succ j => simp [modifyAt, ih]

theorem modifyAt_getD_self {α : Type} :
    ∀ (l : List α) (i : Nat) (f : α → α) (d : α), i < l.length →
      (modifyAt l i f).getD i d = f (l.getD i d) := by
  intro l
  induction l with
  | nil => intro i f d h; simp at h
  | cons x xs ih =>
    intro i f d h
    cases i with
    | zero => rfl
    | succ j =>
      simp only [modifyAt, List.getD_cons_succ]
      exact ih j f d (by simpa using h)

theorem modifyAt_getD_ne {α : Type} :
    ∀ (l : List α) (i j : Nat) (f : α → α) (d : α), i ≠ j →
      (modifyAt l i f).getD j d = l.getD j d := by
  intro l
  induction l with
  | nil => intro i j f d hne; cases i <;> rfl
  | cons x xs ih =>
    intro i j f d hne
    cases i with
    | zero =>
      cases j with
      | zero => exact absurd rfl hne
      | succ k => rfl
    | succ m =>
      cases j with
      | zero => rfl
      | succ k =>
        simp only [modifyAt, List.getD_cons_succ]
        exact ih m k f d (by omega)

theorem modifyAt_map {α β : Type} :
    ∀ (l : List α) (i : Nat) (f : α → α) (g : α → β), (∀ v, g (f v) = g v) →
      (modifyAt l i f).map g = l.map g := by
  intro l
  induction l with
  | nil => intro i f g hg; rfl
  | cons x xs ih =>
    intro i f g hg
    cases i with
    | zero => simp [modifyAt, hg]
    | succ j => simp [modifyAt, ih j f g hg]

theorem findTitleIdx_lt :
    ∀ (t : String) (l : List Value) (i : Nat),
      findTitleIdx t l = some i → i < l.length := by
  intro t l
  induction l with
  | nil => intro i h; simp [findTitleIdx] at h
  | cons v vs ih =>
    intro i h
    by_cases hv : v.title = t
    · simp [findTitleIdx, hv] at h
      simp only [List.length_cons]
      omega
    · simp only [findTitleIdx, if_neg hv, Option.map_eq_some'] at h
      obtain ⟨j, hj, rfl⟩ := h
      have := ih j hj
      simp only [List.length_cons]
      omega

theorem findTitleIdx_congr :
    ∀ (t : String) (l₁ l₂ : List Value),
      l₁.map Value.title = l₂.map Value.title →
      findTitleIdx t l₁ = findTitleIdx t l₂ := by
  intro t l₁
  induction l₁ with
  | nil =>
    intro l₂ h
    cases l₂ with
    | nil => rfl
    | cons w ws => simp at h
  | cons v vs ih =>
    intro l₂ h
    cases l₂ with
    | nil => simp at h
    | cons w ws =>
      simp only [List.map_cons, List.cons.injEq] at h
      simp only [findTitleIdx, h.1, ih ws h.2]

theorem findTitleIdx_getD_title :
    ∀ (t : String) (l : List Value) (i : Nat) (d : Value),
      findTitleIdx t l = some i → (l.getD i d).title = t := by
  intro t l
  induction l with
  | nil => intro i d h; simp [findTitleIdx] at h
  | cons v vs ih =>
    intro i d h
    by_cases hv : v.title = t
    · simp [findTitleIdx, hv] at h
      subst h
      exact hv
    · simp only [findTitleIdx, if_neg hv, Option.map_eq_some'] at h
      obtain ⟨j, hj, rfl⟩ := h
      simp only [List.getD_cons_succ]
      exact ih j d hj

theorem findTitleIdx_first :
    ∀ (t : String) (l : List Value) (i : Nat) (d : Value),
      findTitleIdx t l = some i → ∀ j, j < i → (l.getD j d).title ≠ t := by
  intro t l
  induction l with
  | nil => intro i d h; simp [findTitleIdx] at h
  | cons v vs ih =>
    intro i d h j hj
    by_cases hv : v.title = t
    · simp [findTitleIdx, hv] at h
      omega
    · simp only [findTitleIdx, if_neg hv, Option.map_eq_some'] at h
      obtain ⟨k, hk, rfl⟩ := h
      cases j with
      | zero => exact hv
      | succ m =>
        simp only [List.getD_cons_succ]
        exact ih k d hk m (by omega)

theorem applyPairAt_length (values : List Value) (wi li : Nat) (now : String) :
    (applyPairAt values wi li now).length = values.length := by
  simp [applyPairAt, modifyAt_length]

theorem applyPairAt_map_title (values : List Value) (wi li : Nat) (now : String) :
    (applyPairAt values wi li now).map Value.title = values.map Value.title := by
  unfold applyPairAt
  rw [modifyAt_map _ li (fun v => { v with updatedAt := now }) Value.title
      (fun v => rfl)]
  rw [modifyAt_map _ wi (fun v => { v with updatedAt := now }) Value.title
      (fun v => rfl)]
  rw [modifyAt_map _ li (fun v => { v with comparisonCount := v.comparisonCount + 1 })
      Value.title (fun v => rfl)]
  rw [modifyAt_map _ wi (fun v => { v with comparisonCount := v.comparisonCount + 1 })
      Value.title (fun v => rfl)]
  rw [modifyAt_map _ li (fun v => { v with score := v.score - 10 }) Value.title
      (fun v => rfl)]
  rw [modifyAt_map _ wi (fun v => { v with score := v.score + 10 }) Value.title
      (fun v => rfl)]

theorem applyPairAt_getD_winner (values : List Value) (wi li : Nat)
    (now : String) (d : Value) (h : wi < values.length) (hne : wi ≠ li) :
    (applyPairAt values wi li now).getD wi d =
      { values.getD wi d with
          score := (values.getD wi d).score + 10,
          comparisonCount := (values.getD wi d).comparisonCount + 1,
          updatedAt := now } := by
  unfold applyPairAt
  rw [modifyAt_getD_ne _ li wi _ _ (fun hc => hne hc.symm)]
  rw [modifyAt_getD_self _ wi _ _ (by simp [modifyAt_length]; exact h)]
  rw [modifyAt_getD_ne _ li wi _ _ (fun hc => hne hc.symm)]
  rw [modifyAt_getD_self _ wi _ _ (by simp [modifyAt_length]; exact h)]
  rw [modifyAt_getD_ne _ li wi _ _ (fun hc => hne hc.symm)]
  rw [modifyAt_getD_self _ wi _ _ h]

theorem applyPairAt_getD_loser (values : List Value) (wi li : Nat)
    (now : String) (d : Value) (h : li < values.length) (hne : wi ≠ li) :
    (applyPairAt values wi li now).getD li d =
      { values.getD li d with
          score := (values.getD li d).score - 10,
          comparisonCount := (values.getD li d).comparisonCount + 1,
          updatedAt := now } := by
  unfold applyPairAt
  rw [modifyAt_getD_self _ li _ _ (by simp [modifyAt_length]; exact h)]
  rw [modifyAt_getD_ne _ wi li _ _ hne]
  rw [modifyAt_getD_self _ li _ _ (by simp [modifyAt_length]; exact h)]
  rw [modifyAt_getD_ne _ wi li _ _ hne]
  rw [modifyAt_getD_self _ li _ _ (by simp [modifyAt_length]; exact h)]
  rw [modifyAt_getD_ne _ wi li _ _ hne]

theorem applyPairAt_getD_other (values : List Value) (wi li j : Nat)
    (now : String) (d : Value) (hjw : j ≠ wi) (hjl : j ≠ li) :
    (applyPairAt values wi li now).getD j d = values.getD j d := by
  unfold applyPairAt
  rw [modifyAt_getD_ne _ li j _ _ (fun hc => hjl hc.symm)]
  rw [modifyAt_getD_ne _ wi j _ _ (fun hc => hjw hc.symm)]
  rw [modifyAt_getD_ne _ li j _ _ (fun hc => hjl hc.symm)]
  rw [modifyAt_getD_ne _ wi j _ _ (fun hc => hjw hc.symm)]
  rw [modifyAt_getD_ne _ li j _ _ (fun hc => hjl hc.symm)]
  rw [modifyAt_getD_ne _ wi j _ _ (fun hc => hjw hc.symm)]

theorem applyPairAt_getD_same (values : List Value) (wi : Nat)
    (now : String) (d : Value) (h : wi < values.length) :
    (applyPairAt values wi wi now).getD wi d =
      { values.getD wi d with
          score := (values.getD wi d).score + 10 - 10,
          comparisonCount := (values.getD wi d).comparisonCount + 1 + 1,
          updatedAt := now } := by
  unfold applyPairAt
  rw [modifyAt_getD_self _ wi _ _ (by simp [modifyAt_length]; exact h)]
  rw [modifyAt_getD_self _ wi _ _ (by simp [modifyAt_length]; exact h)]
  rw [modifyAt_getD_self _ wi _ _ (by simp [modifyAt_length]; exact h)]
  rw [modifyAt_getD_self _ wi _ _ (by simp [modifyAt_length]; exact h)]
  rw [modifyAt_getD_self _ wi _ _ (by simp [modifyAt_length]; exact h)]
  rw [modifyAt_getD_self _ wi _ _ h]

theorem applyOutcome_eq_none_of_parse (values : List Value) (r now : String)
    (hp : parseOutcome r = none) : applyOutcome values r now = none := by
  unfold applyOutcome
  rw [hp]
  exact Option.none_bind _

theorem applyOutcome_eq_none_of_winner (values : List Value) (r now w l : String)
    (hp : parseOutcome r = some (w, l))
    (hw : findTitleIdx (jsTrim w) values = none) :
    applyOutcome values r now = none := by
  unfold applyOutcome
  rw [hp]
  simp only [Option.some_bind]
  rw [hw]
  exact Option.none_bind _

theorem applyOutcome_eq_none_of_loser (values : List Value) (r now w l : String)
    (wi : Nat) (hp : parseOutcome r = some (w, l))
    (hw : findTitleIdx (jsTrim w) values = some wi)
    (hl : findTitleIdx (jsTrim l) values = none) :
    applyOutcome values r now = none := by
  unfold applyOutcome
  rw [hp]
  simp only [Option.some_bind]
  rw [hw]
  simp only [Option.some_bind]
  rw [hl]
  exact Option.none_bind _

theorem applyOutcome_eq_some (values : List Value) (r now w l : String)
    (wi li : Nat) (hp : parseOutcome r = some (w, l))
    (hw : findTitleIdx (jsTrim w) values = some wi)
    (hl : findTitleIdx (jsTrim l) values = some li) :
    applyOutcome values r now = some (applyPairAt values wi li now) := by
  unfold applyOutcome
  rw [hp]
  simp only [Option.some_bind]
  rw [hw]
  simp only [Option.some_bind]
  rw [hl]
  simp only [Option.some_bind]

theorem applyOutcome_map_title (values vs : List Value) (r now : String)
    (h : applyOutcome values r now = some vs) :
    vs.map Value.title = values.map Value.title := by
  cases hp : parseOutcome r with
  | none =>
    rw [applyOutcome_eq_none_of_parse values r now hp] at h
    simp at h
  | some wl =>
    obtain ⟨w, l⟩ := wl
    cases hw : findTitleIdx (jsTrim w) values with
    | none =>
      rw [applyOutcome_eq_none_of_winner values r now w l hp hw] at h
      simp at h
    | some wi =>
      cases hl : findTitleIdx (jsTrim l) values with
      | none =>
        rw [applyOutcome_eq_none_of_loser values r now w l wi hp hw hl] at h
        simp at h
      | some li =>
        rw [applyOutcome_eq_some values r now w l wi li hp hw hl] at h
        simp only [Option.some.injEq] at h
        rw [← h]
        exact applyPairAt_map_title values wi li now

theorem applyOutcomes_nil (values : List Value) (now : String) :
    applyOutcomes values [] now = some values := rfl

theorem applyOutcomes_cons (values : List Value) (r : String)
    (rs : List String) (now : String) :
    applyOutcomes values (r :: rs) now =
      (applyOutcome values r now).bind fun vs => applyOutcomes vs rs now := rfl

/-- Sample record used in witnesses. -/
def vLife : Value :=
  { id := "20240101-life", title := "Life", score := 1500, comparisonCount := 0,
    tags := "", createdAt := "t0", updatedAt := "t0", rationale := "" }

/-- Sample record used in witnesses. -/
def vReason : Value :=
  { id := "20240101-reason", title := "Reason", score := 1500,
    comparisonCount := 0, tags := "", createdAt := "t0", updatedAt := "t0",
    rationale := "" }

/-- Sample record used in witnesses. -/
def vPurpose : Value :=
  { id := "20240101-purpose", title := "Purpose", score := 1480,
    comparisonCount := 5, tags := "", createdAt := "t0", updatedAt := "t0",
    rationale := "" }

/-- C1: if any outcome in the batch names a title that does not resolve to
an existing record, `applyOutcomes` (the `update-scores` action) returns
no updated list — processing is aborted — and the persisted record store
is exactly the input: no record's `score`, `comparisonCount` or
`updatedAt` differs from its value before the call (all-or-nothing per
call). -/
theorem applyOutcomes_all_or_nothing :
    ∀ (responses : List String) (values : List Value) (now : String),
      (∃ r ∈ responses, ∃ w l : String, parseOutcome r = some (w, l) ∧
          (findTitleIdx (jsTrim w) values = none ∨
           findTitleIdx (jsTrim l) values = none)) →
      applyOutcomes values responses now = none ∧
      updateScoresStore values responses now = values := by
  intro responses
  induction responses with
  | nil =>
    intro values now h
    obtain ⟨r, hr, _⟩ := h
    cases hr
  | cons r2 rs ih =>
    intro values now h
    have hnone : applyOutcomes values (r2 :: rs) now = none := by
      obtain ⟨r, hr, w, l, hp, hfail⟩ := h
      rcases List.mem_cons.mp hr with rfl | hmem
      · have hstep : applyOutcome values r now = none := by
          rcases hfail with hf | hf
          · exact applyOutcome_eq_none_of_winner values r now w l hp hf
          · cases hw : findTitleIdx (jsTrim w) values with
            | none => exact applyOutcome_eq_none_of_winner values r now w l hp hw
            | some wi =>
              exact applyOutcome_eq_none_of_loser values r now w l wi hp hw hf
        rw [applyOutcomes_cons, hstep]
        exact Option.none_bind _
      · cases hstep : applyOutcome values r2 now with
        | none =>
          rw [applyOutcomes_cons, hstep]
          exact Option.none_bind _
        | some vs =>
          have ht := applyOutcome_map_title values vs r2 now hstep
          have hnext := ih vs now ⟨r, hmem, w, l, hp, by
            rcases hfail with hf | hf
            · exact Or.inl ((findTitleIdx_congr _ vs values ht).trans hf)
            · exact Or.inr ((findTitleIdx_congr _ vs values ht).trans hf)⟩
          rw [applyOutcomes_cons, hstep]
          simp only [Option.some_bind]
          exact hnext.1
    refine ⟨hnone, ?_⟩
    unfold updateScoresStore
    rw [hnone]

/-- Witness for C1: a one-record store and the outcome `"Life>Reason"`
whose loser title resolves to no record. -/
theorem applyOutcomes_all_or_nothing_witness :
    applyOutcomes [vLife] ["Life>Reason"] "T1" = none ∧
    updateScoresStore [vLife] ["Life>Reason"] "T1" = [vLife] :=
  applyOutcomes_all_or_nothing ["Life>Reason"] [vLife] "T1"
    ⟨"Life>Reason", by decide, "Life", "Reason", by decide, Or.inr (by decide)⟩

/-- C4: for a successfully applied outcome resolving winner and loser to
two distinct records, the winner's score gains exactly 10, the loser's
loses exactly 10, both comparison counters grow by exactly 1, both
`updatedAt` fields become the supplied timestamp; and applying the same
outcome twice yields +20/−20 on the scores and +2/+2 on the counters. -/
theorem applyOutcome_deltas (values : List Value) (r now w l : String)
    (wi li : Nat)
    (hp : parseOutcome r = some (w, l))
    (hw : findTitleIdx (jsTrim w) values = some wi)
    (hl : findTitleIdx (jsTrim l) values = some li)
    (hne : wi ≠ li) :
    ∃ vs, applyOutcome values r now = some vs ∧
      (vs.getD wi default).score = (values.getD wi default).score + 10 ∧
      (vs.getD li default).score = (values.getD li default).score - 10 ∧
      (vs.getD wi default).comparisonCount =
        (values.getD wi default).comparisonCount + 1 ∧
      (vs.getD li default).comparisonCount =
        (values.getD li default).comparisonCount + 1 ∧
      (vs.getD wi default).updatedAt = now ∧
      (vs.getD li default).updatedAt = now ∧
      ∃ vs2, applyOutcomes values [r, r] now = some vs2 ∧
        (vs2.getD wi default).score = (values.getD wi default).score + 20 ∧
        (vs2.getD li default).score = (values.getD li default).score - 20 ∧
        (vs2.getD wi default).comparisonCount =
          (values.getD wi default).comparisonCount + 2 ∧
        (vs2.getD li default).comparisonCount =
          (values.getD li default).comparisonCount + 2 := by
  have hwlt := findTitleIdx_lt _ _ _ hw
  have hllt := findTitleIdx_lt _ _ _ hl
  have happ := applyOutcome_eq_some values r now w l wi li hp hw hl
  have hgw := applyPairAt_getD_winner values wi li now default hwlt hne
  have hgl := applyPairAt_getD_loser values wi li now default hllt hne
  have ht := applyPairAt_map_title values wi li now
  have hw2 : findTitleIdx (jsTrim w) (applyPairAt values wi li now) = some wi :=
    (findTitleIdx_congr _ _ values ht).trans hw
  have hl2 : findTitleIdx (jsTrim l) (applyPairAt values wi li now) = some li :=
    (findTitleIdx_congr _ _ values ht).trans hl
  have happ2 := applyOutcome_eq_some (applyPairAt values wi li now) r now w l
    wi li hp hw2 hl2
  have hwlt2 : wi < (applyPairAt values wi li now).length := by
    rw [applyPairAt_length]; exact hwlt
  have hllt2 : li < (applyPairAt values wi li now).length := by
    rw [applyPairAt_length]; exact hllt
  have hgw2 := applyPairAt_getD_winner (applyPairAt values wi li now) wi li now
    default hwlt2 hne
  have hgl2 := applyPairAt_getD_loser (applyPairAt values wi li now) wi li now
    default hllt2 hne
  have htwice : applyOutcomes values [r, r] now =
      some (applyPairAt (applyPairAt values wi li now) wi li now) := by
    rw [applyOutcomes_cons, happ]
    simp only [Option.some_bind]
    rw [applyOutcomes_cons, happ2]
    simp only [Option.some_bind]
    rfl
  refine ⟨_, happ, ?_, ?_, ?_, ?_, ?_, ?_, _, htwice, ?_, ?_, ?_, ?_⟩
  · rw [hgw]
  · rw [hgl]
  · rw [hgw]
  · rw [hgl]
  · rw [hgw]
  · rw [hgl]
  · rw [hgw2, hgw]
    show (values.getD wi default).score + 10 + 10 =
      (values.getD wi default).score + 20
    omega
  · rw [hgl2, hgl]
    show (values.getD li default).score - 10 - 10 =
      (values.getD li default).score - 20
    omega
  · rw [hgw2, hgw]
  · rw [hgl2, hgl]

/-- Witness for C4: two records and the outcome `"Life>Reason"`. -/
theorem applyOutcome_deltas_witness :
    ∃ vs, applyOutcome [vLife, vReason] "Life>Reason" "T1" = some vs ∧
      (vs.getD 0 default).score = ([vLife, vReason].getD 0 default).score + 10 ∧
      (vs.getD 1 default).score = ([vLife, vReason].getD 1 default).score - 10 ∧
      (vs.getD 0 default).comparisonCount =
        ([vLife, vReason].getD 0 default).comparisonCount + 1 ∧
      (vs.getD 1 default).comparisonCount =
        ([vLife, vReason].getD 1 default).comparisonCount + 1 ∧
      (vs.getD 0 default).updatedAt = "T1" ∧
      (vs.getD 1 default).updatedAt = "T1" ∧
      ∃ vs2, applyOutcomes [vLife, vReason] ["Life>Reason", "Life>Reason"] "T1" =
          some vs2 ∧
        (vs2.getD 0 default).score = ([vLife, vReason].getD 0 default).score + 20 ∧
        (vs2.getD 1 default).score = ([vLife, vReason].getD 1 default).score - 20 ∧
        (vs2.getD 0 default).comparisonCount =
          ([vLife, vReason].getD 0 default).comparisonCount + 2 ∧
        (vs2.getD 1 default).comparisonCount =
          ([vLife, vReason].getD 1 default).comparisonCount + 2 :=
  applyOutcome_deltas [vLife, vReason] "Life>Reason" "T1" "Life" "Reason" 0 1
    (by decide) (by decide) (by decide) (by decide)

/-- C9: when the winner and loser titles trim to the same string and that
title resolves, the outcome is applied rather than rejected: the record's
score is net unchanged (+10 then −10), its comparison counter grows by 2,
and its `updatedAt` becomes the supplied timestamp. -/
theorem applyOutcome_self_comparison (values : List Value) (r now w l : String)
    (wi : Nat)
    (hp : parseOutcome r = some (w, l))
    (heq : jsTrim w = jsTrim l)
    (hw : findTitleIdx (jsTrim w) values = some wi) :
    ∃ vs, applyOutcome values r now = some vs ∧
      (vs.getD wi default).score = (values.getD wi default).score ∧
      (vs.getD wi default).comparisonCount =
        (values.getD wi default).comparisonCount + 2 ∧
      (vs.getD wi default).updatedAt = now := by
  have hl : findTitleIdx (jsTrim l) values = some wi := heq ▸ hw
  have hwlt := findTitleIdx_lt _ _ _ hw
  have happ := applyOutcome_eq_some values r now w l wi wi hp hw hl
  have hg := applyPairAt_getD_same values wi now default hwlt
  refine ⟨_, happ, ?_, ?_, ?_⟩
  · rw [hg]
    show (values.getD wi default).score + 10 - 10 = (values.getD wi default).score
    omega
  · rw [hg]
  · rw [hg]

/-- Witness for C9: a single record and the outcome `"Life>Life"`. -/
theorem applyOutcome_self_comparison_witness :
    ∃ vs, applyOutcome [vLife, vReason] "Life>Life" "T1" = some vs ∧
      (vs.getD 0 default).score = ([vLife, vReason].getD 0 default).score ∧
      (vs.getD 0 default).comparisonCount =
        ([vLife, vReason].getD 0 default).comparisonCount + 2 ∧
      (vs.getD 0 default).updatedAt = "T1" :=
  applyOutcome_self_comparison [vLife, vReason] "Life>Life" "T1" "Life" "Life" 0
    (by decide) rfl (by decide)

/-- Record with a duplicated title, used for the C6 counterexample. -/
def dupAcme1 : Value :=
  { id := "a1", title := "Acme", score := 1500, comparisonCount := 0,
    tags := "", createdAt := "t0", updatedAt := "t0", rationale := "" }

/-- Second record with the same title as `dupAcme1`. -/
def dupAcme2 : Value :=
  { id := "a2", title := "Acme", score := 1400, comparisonCount := 3,
    tags := "", createdAt := "t0", updatedAt := "t0", rationale := "" }

/-- Record used as the loser in the C6 counterexample. -/
def vBeta : Value :=
  { id := "b", title := "Beta", score := 1500, comparisonCount := 0,
    tags := "", createdAt := "t0", updatedAt := "t0", rationale := "" }

/-- Counterexample to C6: with two records titled `"Acme"`, the outcome
`"Acme>Beta"` does not fail; the update succeeds and silently mutates the
first `"Acme"` record, leaving the second untouched. -/
theorem applyOutcomes_duplicate_title_no_failure :
    applyOutcomes [dupAcme1, dupAcme2, vBeta] ["Acme>Beta"] "T1" =
      some [{ dupAcme1 with
                score := 1510, comparisonCount := 1, updatedAt := "T1" },
            dupAcme2,
            { vBeta with
                score := 1490, comparisonCount := 1, updatedAt := "T1" }] := by
  decide

/-- C6 (amended): when an outcome's winner title matches more than one
record, `applyOutcomes` does not fail; it silently resolves the title to
the first matching record in list order, applies the ±10 update to the
resolved pair, and leaves every other record — in particular the other
records with the same title — untouched. -/
theorem applyOutcome_first_match (values : List Value) (r now w l : String)
    (wi li : Nat)
    (hp : parseOutcome r = some (w, l))
    (_hdup : 2 ≤ (values.filter (fun v => v.title == jsTrim w)).length)
    (hw : findTitleIdx (jsTrim w) values = some wi)
    (hl : findTitleIdx (jsTrim l) values = some li)
    (hne : wi ≠ li) :
    ∃ vs, applyOutcome values r now = some vs ∧
      (values.getD wi default).title = jsTrim w ∧
      (∀ j, j < wi → (values.getD j default).title ≠ jsTrim w) ∧
      (vs.getD wi default).score = (values.getD wi default).score + 10 ∧
      (vs.getD wi default).comparisonCount =
        (values.getD wi default).comparisonCount + 1 ∧
      (vs.getD wi default).updatedAt = now ∧
      (∀ j, j ≠ wi → j ≠ li → vs.getD j default = values.getD j default) := by
  have hwlt := findTitleIdx_lt _ _ _ hw
  have happ := applyOutcome_eq_some values r now w l wi li hp hw hl
  have hgw := applyPairAt_getD_winner values wi li now default hwlt hne
  refine ⟨_, happ, findTitleIdx_getD_title _ _ _ _ hw,
    fun j hj => findTitleIdx_first _ _ _ _ hw j hj, ?_, ?_, ?_, ?_⟩
  · rw [hgw]
  · rw [hgw]
  · rw [hgw]
  · intro j hjw hjl
    exact applyPairAt_getD_other values wi li j now default hjw hjl

/-- Witness for the amended C6: two records titled `"Acme"` and the
outcome `"Acme>Beta"`. -/
theorem applyOutcome_first_match_witness :
    ∃ vs, applyOutcome [dupAcme1, dupAcme2, vBeta] "Acme>Beta" "T1" = some vs ∧
      ([dupAcme1, dupAcme2, vBeta].getD 0 default).title = jsTrim "Acme" ∧
      (∀ j, j < 0 →
        ([dupAcme1, dupAcme2, vBeta].getD j default).title ≠ jsTrim "Acme") ∧
      (vs.getD 0 default).score =
        ([dupAcme1, dupAcme2, vBeta].getD 0 default).score + 10 ∧
      (vs.getD 0 default).comparisonCount =
        ([dupAcme1, dupAcme2, vBeta].getD 0 default).comparisonCount + 1 ∧
      (vs.getD 0 default).updatedAt = "T1" ∧
      (∀ j, j ≠ 0 → j ≠ 2 →
        vs.getD j default = [dupAcme1, dupAcme2, vBeta].getD j default) :=
  applyOutcome_first_match [dupAcme1, dupAcme2, vBeta] "Acme>Beta" "T1"
    "Acme" "Beta" 0 2 (by decide) (by decide) (by decide) (by decide) (by decide)

/-- Stable insertion of `v` into a list sorted ascending by
`comparisonCount`: `v` goes before the first element whose count is not
smaller, so among equal counts earlier-listed records stay first. -/
def insertV (v : Value) : List Value → List Value
  | [] => [v]
  | w :: ws =>
    if w.comparisonCount < v.comparisonCount then w :: insertV v ws
    else v :: w :: ws

/-- The sort `values.sort((a, b) => a.comparisonCount - b.comparisonCount)`
of the `pairs` action. ECMAScript guarantees `Array.prototype.sort` is
stable, so it is embedded as the stable ascending insertion sort by
`comparisonCount`; stability, sortedness and the permutation property are
proved below. -/
def sortByCount (values : List Value) : List Value :=
  values.foldr insertV []

/-- The `minCount` of the `pairs` action: `values[0].comparisonCount`
read after the in-place sort. -/
def poolMin (values : List Value) : Nat :=
  ((sortByCount values).headD default).comparisonCount

/-- The candidate pool of the `pairs` action: the whole (sorted) record
array when `minCount >= 3`; otherwise the least-compared cohort, widened
to `values.slice(0, Math.min(values.length, num * 2))` when the cohort
has fewer than `num * 2` members. -/
def selectPool (values : List Value) (n : Nat) : List Value :=
  if 3 ≤ poolMin values then sortByCount values
  else if ((sortByCount values).filter
      (fun v => v.comparisonCount == poolMin values)).length < 2 * n then
    (sortByCount values).take (min (sortByCount values).length (2 * n))
  else
    (sortByCount values).filter (fun v => v.comparisonCount == poolMin values)

/-- The pair-emission loop of the `pairs` action:
`for (i = 0; i < Math.min(num * 2, candidates.length - 1); i += 2)`
pushes `[candidates[i], candidates[i + 1]]`, i.e. consecutive elements
are taken two at a time while fewer than `n` pairs have been emitted and
at least two elements remain. -/
def emitPairs {α : Type} : List α → Nat → List (α × α)
  | _, 0 => []
  | [], _ + 1 => []
  | [_], _ + 1 => []
  | a :: b :: rest, n + 1 => (a, b) :: emitPairs rest n

/-- The `pairs` action: it exits with an error on fewer than 2 records,
otherwise determines the candidate pool, shuffles it and emits pairs.
The in-place Fisher–Yates shuffle driven by `Math.random()` is abstracted
as the function `shuffle`; every theorem below assumes only that it
permutes its input. -/
def selectPairs (values : List Value) (n : Nat)
    (shuffle : List Value → List Value) : Option (List (Value × Value)) :=
  if values.length < 2 then none
  else some (emitPairs (shuffle (selectPool values n)) n)

/-- The in-memory record array at the end of the `pairs` action: the sort
happened in place, and in the `minCount >= 3` branch the candidate array
aliases the record array so the shuffle also permuted it in place. The
action never calls `writeValues`, so nothing is persisted, and no branch
writes any record field. -/
def pairsFinalState (values : List Value) (_n : Nat)
    (shuffle : List Value → List Value) : List Value :=
  if 3 ≤ poolMin values then shuffle (sortByCount values)
  else sortByCount values

theorem insertV_perm (v : Value) (l : List Value) :
    List.Perm (insertV v l) (v :: l) := by
  induction l with
  | nil => exact List.Perm.refl _
  | cons w ws ih =>
    by_cases h : w.comparisonCount < v.comparisonCount
    · simp only [insertV, if_pos h]
      exact (ih.cons w).trans (List.Perm.swap v w ws)
    · simp only [insertV, if_neg h]
      exact List.Perm.refl _

theorem sortByCount_perm (values : List Value) :
    List.Perm (sortByCount values) values := by
  induction values with
  | nil => exact List.Perm.refl _
  | cons x xs ih =>
    show List.Perm (insertV x (sortByCount xs)) (x :: xs)
    exact (insertV_perm x (sortByCount xs)).trans (ih.cons x)

theorem sortByCount_length (values : List Value) :
    (sortByCount values).length = values.length :=
  (sortByCount_perm values).length_eq

theorem insertV_pairwise (v : Value) (l : List Value)
    (h : List.Pairwise (fun a b => a.comparisonCount ≤ b.comparisonCount) l) :
    List.Pairwise (fun a b => a.comparisonCount ≤ b.comparisonCount)
      (insertV v l) := by
  induction l with
  | nil => simp [insertV]
  | cons w ws ih =>
    rw [List.pairwise_cons] at h
    obtain ⟨hw, hws⟩ := h
    by_cases hlt : w.comparisonCount < v.comparisonCount
    · simp only [insertV, if_pos hlt]
      rw [List.pairwise_cons]
      refine ⟨?_, ih hws⟩
      intro x hx
      have hx2 := (insertV_perm v ws).mem_iff.mp hx
      rcases List.mem_cons.mp hx2 with rfl | hxw
      · omega
      · exact hw x hxw
    · simp only [insertV, if_neg hlt]
      rw [List.pairwise_cons]
      constructor
      · intro x hx
        rcases List.mem_cons.mp hx with rfl | hxw
        · omega
        · have := hw x hxw
          omega
      · rw [List.pairwise_cons]
        exact ⟨hw, hws⟩

theorem sortByCount_pairwise (values : List Value) :
    List.Pairwise (fun a b => a.comparisonCount ≤ b.comparisonCount)
      (sortByCount values) := by
  induction values with
  | nil => simp [sortByCount]
  | cons x xs ih =>
    show List.Pairwise _ (insertV x (sortByCount xs))
    exact insertV_pairwise x _ ih

theorem insertV_filter_count (v : Value) (l : List Value) (c : Nat) :
    (insertV v l).filter (fun x => x.comparisonCount == c) =
      if v.comparisonCount = c then
        v :: l.filter (fun x => x.comparisonCount == c)
      else l.filter (fun x => x.comparisonCount == c) := by
  induction l with
  | nil => by_cases hv : v.comparisonCount = c <;> simp [insertV, hv]
  | cons w ws ih =>
    by_cases hlt : w.comparisonCount < v.comparisonCount
    · simp only [insertV, if_pos hlt]
      by_cases hw : w.comparisonCount = c
      · have hv : ¬ v.comparisonCount = c := by omega
        simp [List.filter_cons, hw, hv, ih]
      · by_cases hv : v.comparisonCount = c <;>
          simp [List.filter_cons, hw, hv, ih]
    · simp only [insertV, if_neg hlt]
      by_cases hv : v.comparisonCount = c <;> simp [List.filter_cons, hv]

theorem sortByCount_filter_count (values : List Value) (c : Nat) :
    (sortByCount values).filter (fun x => x.comparisonCount == c) =
      values.filter (fun x => x.comparisonCount == c) := by
  induction values with
  | nil => rfl
  | cons x xs ih =>
    show (insertV x (sortByCount xs)).filter _ = _
    rw [insertV_filter_count]
    by_cases hx : x.comparisonCount = c <;> simp [List.filter_cons, hx, ih]

theorem poolMin_eq (values : List Value) (m : Nat)
    (hmem : ∃ v ∈ values, v.comparisonCount = m)
    (hmin : ∀ v ∈ values, m ≤ v.comparisonCount) :
    poolMin values = m := by
  obtain ⟨v, hv, hvc⟩ := hmem
  have hperm := sortByCount_perm values
  have hvs : v ∈ sortByCount values := hperm.mem_iff.mpr hv
  cases hs : sortByCount values with
  | nil =>
    rw [hs] at hvs
    cases hvs
  | cons h0 t =>
    have hpw := sortByCount_pairwise values
    rw [hs] at hpw hvs
    have h0s : h0 ∈ sortByCount values := by
      rw [hs]
      exact List.mem_cons_self h0 t
    have h1 : m ≤ h0.comparisonCount := hmin h0 (hperm.mem_iff.mp h0s)
    have h2 : h0.comparisonCount ≤ m := by
      rcases List.mem_cons.mp hvs with rfl | hvt
      · omega
      · have := List.rel_of_pairwise_cons hpw hvt
        omega
    unfold poolMin
    rw [hs, List.headD_cons]
    omega

theorem take_min_self {α : Type} (l : List α) (k : Nat) :
    l.take (min l.length k) = l.take k := by
  by_cases h : l.length ≤ k
  · rw [min_eq_left h, List.take_length, List.take_of_length_le h]
  · rw [min_eq_right (by omega : k ≤ l.length)]

theorem selectPool_sublist (values : List Value) (n : Nat) :
    (selectPool values n).Sublist (sortByCount values) := by
  unfold selectPool
  split
  · exact List.Sublist.refl _
  · split
    · exact List.take_sublist _ _
    · exact List.filter_sublist _

theorem selectPool_subset (values : List Value) (n : Nat) :
    ∀ x ∈ selectPool values n, x ∈ values := by
  intro x hx
  exact (sortByCount_perm values).mem_iff.mp
    ((selectPool_sublist values n).subset hx)

theorem selectPool_nodup (values : List Value) (n : Nat)
    (h : values.Nodup) : (selectPool values n).Nodup :=
  (selectPool_sublist values n).nodup ((sortByCount_perm values).symm.nodup h)

theorem selectPool_length_le (values : List Value) (n : Nat) :
    (selectPool values n).length ≤ values.length := by
  have := (selectPool_sublist values n).length_le
  rwa [sortByCount_length] at this

theorem selectPool_length_ge (values : List Value) (n : Nat)
    (h2 : 2 ≤ values.length) (hn : 1 ≤ n) :
    2 ≤ (selectPool values n).length := by
  unfold selectPool
  split
  · rw [sortByCount_length]
    exact h2
  · split
    · rw [List.length_take, sortByCount_length]
      omega
    · omega

theorem emitPairs_length {α : Type} :
    ∀ (l : List α) (n : Nat), (emitPairs l n).length = min n (l.length / 2)
  | _, 0 => by simp [emitPairs]
  | [], _ + 1 => by simp [emitPairs]
  | [_], _ + 1 => by simp [emitPairs]
  | _ :: _ :: rest, n + 1 => by
    have ih := emitPairs_length rest n
    simp only [emitPairs, List.length_cons, ih]
    omega

theorem emitPairs_mem {α : Type} :
    ∀ (l : List α) (n : Nat) (p : α × α), p ∈ emitPairs l n → p.1 ∈ l ∧ p.2 ∈ l
  | _, 0, _ => by simp [emitPairs]
  | [], _ + 1, _ => by simp [emitPairs]
  | [_], _ + 1, _ => by simp [emitPairs]
  | a :: b :: rest, n + 1, p => by
    intro hp
    rcases List.mem_cons.mp hp with rfl | hmem
    · constructor <;> simp
    · have ih := emitPairs_mem rest n p hmem
      exact ⟨List.mem_cons_of_mem a (List.mem_cons_of_mem b ih.1),
        List.mem_cons_of_mem a (List.mem_cons_of_mem b ih.2)⟩

theorem emitPairs_flat_sublist {α : Type} :
    ∀ (l : List α) (n : Nat),
      ((emitPairs l n).flatMap fun p => [p.1, p.2]).Sublist l
  | _, 0 => by simp [emitPairs]
  | [], _ + 1 => by simp [emitPairs]
  | [_], _ + 1 => by simp [emitPairs]
  | a :: b :: rest, n + 1 => by
    simp only [emitPairs, List.flatMap_cons, List.cons_append, List.nil_append]
    exact ((emitPairs_flat_sublist rest n).cons₂ b).cons₂ a

theorem flat_nodup_components {α : Type} :
    ∀ (ps : List (α × α)), ((ps.flatMap fun p => [p.1, p.2]).Nodup) →
      ∀ p ∈ ps, p.1 ≠ p.2 := by
  intro ps
  induction ps with
  | nil =>
    intro h p hp
    cases hp
  | cons q qs ih =>
    intro h p hp
    simp only [List.flatMap_cons, List.cons_append, List.nil_append] at h
    rcases List.mem_cons.mp hp with rfl | hmem
    · have h1 := (List.nodup_cons.mp h).1
      intro hc
      exact h1 (by rw [hc]; exact List.mem_cons_self _ _)
    · have h1 := (List.nodup_cons.mp h).2
      have h2 := (List.nodup_cons.mp h1).2
      exact ih h2 p hmem

theorem selectPairs_eq (values : List Value) (n : Nat)
    (shuffle : List Value → List Value) (h2 : 2 ≤ values.length) :
    selectPairs values n shuffle =
      some (emitPairs (shuffle (selectPool values n)) n) := by
  unfold selectPairs
  rw [if_neg (by omega)]

/-- C2: for at least 2 records and any target `n >= 1` and any behaviour
of the random shuffle, the `pairs` action succeeds and returns exactly
`min n (candidatePoolSize / 2)` pairs, where the candidate pool is the
one determined by the selection policy (`selectPool`). -/
theorem selectPairs_length_eq (values : List Value) (n : Nat)
    (shuffle : List Value → List Value)
    (h2 : 2 ≤ values.length) (_hn : 1 ≤ n)
    (hs : ∀ l, List.Perm (shuffle l) l) :
    ∃ ps, selectPairs values n shuffle = some ps ∧
      ps.length = min n ((selectPool values n).length / 2) := by
  refine ⟨_, selectPairs_eq values n shuffle h2, ?_⟩
  rw [emitPairs_length, (hs (selectPool values n)).length_eq]

/-- Witness for C2: three records, `n = 2`, identity shuffle. -/
theorem selectPairs_length_eq_witness :
    ∃ ps, selectPairs [vLife, vReason, vPurpose] 2 id = some ps ∧
      ps.length = min 2 ((selectPool [vLife, vReason, vPurpose] 2).length / 2) :=
  selectPairs_length_eq [vLife, vReason, vPurpose] 2 id (by decide) (by decide)
    (fun l => List.Perm.refl l)

/-- C3: with `m` the minimum comparison count over the records, the
candidate pool is the entire (sorted) record set when `m >= 3`; otherwise
it is the cohort of records whose count equals `m` (in original order)
when that cohort has at least `2 * n` members, and the first `2 * n`
entries of the stable ascending sort by comparison count (ties in
original order) when the cohort is smaller; the last three conjuncts pin
down that sort: it permutes the records, is ascending by count, and keeps
every equal-count cohort in original order. -/
theorem selectPool_policy (values : List Value) (n m : Nat)
    (_h2 : 2 ≤ values.length) (_hn : 1 ≤ n)
    (hmem : ∃ v ∈ values, v.comparisonCount = m)
    (hmin : ∀ v ∈ values, m ≤ v.comparisonCount) :
    (3 ≤ m → selectPool values n = sortByCount values ∧
      List.Perm (selectPool values n) values) ∧
    (m < 3 →
      2 * n ≤ (values.filter (fun v => v.comparisonCount == m)).length →
      selectPool values n = values.filter (fun v => v.comparisonCount == m)) ∧
    (m < 3 →
      (values.filter (fun v => v.comparisonCount == m)).length < 2 * n →
      selectPool values n = (sortByCount values).take (2 * n)) ∧
    List.Perm (sortByCount values) values ∧
    List.Pairwise (fun a b => a.comparisonCount ≤ b.comparisonCount)
      (sortByCount values) ∧
    (∀ c : Nat, (sortByCount values).filter (fun v => v.comparisonCount == c) =
      values.filter (fun v => v.comparisonCount == c)) := by
  have hpm := poolMin_eq values m hmem hmin
  refine ⟨?_, ?_, ?_, sortByCount_perm values, sortByCount_pairwise values,
    fun c => sortByCount_filter_count values c⟩
  · intro h3
    have hsel : selectPool values n = sortByCount values := by
      unfold selectPool
      rw [hpm, if_pos h3]
    exact ⟨hsel, hsel ▸ sortByCount_perm values⟩
  · intro h3 hbig
    unfold selectPool
    rw [hpm, if_neg (by omega : ¬ 3 ≤ m), sortByCount_filter_count values m,
      if_neg (by omega)]
  · intro h3 hsmall
    unfold selectPool
    rw [hpm, if_neg (by omega : ¬ 3 ≤ m), sortByCount_filter_count values m,
      if_pos (by omega), sortByCount_length]
    rw [show min values.length (2 * n) =
        min (sortByCount values).length (2 * n) by rw [sortByCount_length]]
    exact take_min_self (sortByCount values) (2 * n)

/-- Witness for C3: three records with minimum count 0, `n = 1`; the
cohort has 2 members, which is at least `2 * n`, so the pool is the
cohort. -/
theorem selectPool_policy_witness :
    selectPool [vLife, vReason, vPurpose] 1 =
      [vLife, vReason, vPurpose].filter (fun v => v.comparisonCount == 0) :=
  (selectPool_policy [vLife, vReason, vPurpose] 1 0 (by decide) (by decide)
    ⟨vLife, by decide, by decide⟩ (by decide)).2.1 (by decide) (by decide)

/-- C5: for at least 2 distinct records and any `n >= 1` and any
behaviour of the shuffle, no record occurs twice across the returned
pairs, and the two records of each pair are distinct. -/
theorem selectPairs_disjoint (values : List Value) (n : Nat)
    (shuffle : List Value → List Value)
    (h2 : 2 ≤ values.length) (_hn : 1 ≤ n) (hnd : values.Nodup)
    (hs : ∀ l, List.Perm (shuffle l) l) :
    ∃ ps, selectPairs values n shuffle = some ps ∧
      ((ps.flatMap fun p => [p.1, p.2]).Nodup) ∧
      ∀ p ∈ ps, p.1 ≠ p.2 := by
  have hpool := selectPool_nodup values n hnd
  have hshuf : (shuffle (selectPool values n)).Nodup :=
    (hs (selectPool values n)).symm.nodup hpool
  have hflat :=
    (emitPairs_flat_sublist (shuffle (selectPool values n)) n).nodup hshuf
  exact ⟨_, selectPairs_eq values n shuffle h2, hflat,
    flat_nodup_components _ hflat⟩

/-- Witness for C5: three pairwise distinct records, `n = 1`, identity
shuffle. -/
theorem selectPairs_disjoint_witness :
    ∃ ps, selectPairs [vLife, vReason, vPurpose] 1 id = some ps ∧
      ((ps.flatMap fun p => [p.1, p.2]).Nodup) ∧
      ∀ p ∈ ps, p.1 ≠ p.2 :=
  selectPairs_disjoint [vLife, vReason, vPurpose] 1 id (by decide) (by decide)
    (by decide) (fun l => List.Perm.refl l)

/-- C7: on exactly 2 records the `pairs` action returns exactly 1 pair,
for every `n >= 1` and regardless of the records' comparison counts. -/
theorem selectPairs_two_records (values : List Value) (n : Nat)
    (shuffle : List Value → List Value)
    (h2 : values.length = 2) (hn : 1 ≤ n)
    (hs : ∀ l, List.Perm (shuffle l) l) :
    ∃ ps, selectPairs values n shuffle = some ps ∧ ps.length = 1 := by
  refine ⟨_, selectPairs_eq values n shuffle (by omega), ?_⟩
  rw [emitPairs_length, (hs _).length_eq]
  have hge := selectPool_length_ge values n (by omega) hn
  have hle := selectPool_length_le values n
  omega

/-- Witness for C7: two records with different comparison counts and
`n = 7`. -/
theorem selectPairs_two_records_witness :
    ∃ ps, selectPairs [vLife, vPurpose] 7 id = some ps ∧ ps.length = 1 :=
  selectPairs_two_records [vLife, vPurpose] 7 id (by decide) (by decide)
    (fun l => List.Perm.refl l)

/-- C8: the `pairs` action is read-only over the records: every record
appearing in a returned pair is literally one of the input records (no
field of any record is written), and the in-memory array at the end of
the action is a permutation of the input records; nothing is persisted
since the action never writes the store. -/
theorem selectPairs_read_only (values : List Value) (n : Nat)
    (shuffle : List Value → List Value)
    (h2 : 2 ≤ values.length) (_hn : 1 ≤ n)
    (hs : ∀ l, List.Perm (shuffle l) l) :
    ∃ ps, selectPairs values n shuffle = some ps ∧
      (∀ p ∈ ps, p.1 ∈ values ∧ p.2 ∈ values) ∧
      List.Perm (pairsFinalState values n shuffle) values := by
  refine ⟨_, selectPairs_eq values n shuffle h2, ?_, ?_⟩
  · intro p hp
    have hm := emitPairs_mem _ n p hp
    exact ⟨selectPool_subset values n p.1 ((hs _).mem_iff.mp hm.1),
      selectPool_subset values n p.2 ((hs _).mem_iff.mp hm.2)⟩
  · unfold pairsFinalState
    split
    · exact (hs _).trans (sortByCount_perm values)
    · exact sortByCount_perm values

/-- Witness for C8: three records, `n = 1`, identity shuffle. -/
theorem selectPairs_read_only_witness :
    ∃ ps, selectPairs [vLife, vReason, vPurpose] 1 id = some ps ∧
      (∀ p ∈ ps, p.1 ∈ [vLife, vReason, vPurpose] ∧
        p.2 ∈ [vLife, vReason, vPurpose]) ∧
      List.Perm (pairsFinalState [vLife, vReason, vPurpose] 1 id)
        [vLife, vReason, vPurpose] :=
  selectPairs_read_only [vLife, vReason, vPurpose] 1 id (by decide) (by decide)
    (fun l => List.Perm.refl l)

/-- C10: for at least 2 records and any `n >= 1`, the candidate pool has
at least 2 members (the widening rule guarantees this), so the `pairs`
action always returns at least one pair. -/
theorem selectPairs_nonempty (values : List Value) (n : Nat)
    (shuffle : List Value → List Value)
    (h2 : 2 ≤ values.length) (hn : 1 ≤ n)
    (hs : ∀ l, List.Perm (shuffle l) l) :
    2 ≤ (selectPool values n).length ∧
    ∃ ps, selectPairs values n shuffle = some ps ∧ 1 ≤ ps.length := by
  have hge := selectPool_length_ge values n h2 hn
  refine ⟨hge, _, selectPairs_eq values n shuffle h2, ?_⟩
  rw [emitPairs_length, (hs _).length_eq]
  omega

/-- Witness for C10: a three-record store where only one record has the
minimum count, so the widening rule fires. -/
theorem selectPairs_nonempty_witness :
    2 ≤ (selectPool [vLife, vPurpose, vReason] 1).length ∧
    ∃ ps, selectPairs [vLife, vPurpose, vReason] 1 id = some ps ∧
      1 ≤ ps.length :=
  selectPairs_nonempty [vLife, vPurpose, vReason] 1 id (by decide) (by decide)
    (fun l => List.Perm.refl l)
